import Mathlib

/-!
# The longest-prefix-match trie of tbgp (package `lpm`)

A shallow embedding of `lpm/lpm.go`.  A Go `*node` is a value of the inductive type
`lpm.node`: the constructor `nil` is the nil pointer, `mk` a pointer to a struct (every
node is owned by exactly one parent, so no aliasing has to be modelled).  Unsigned 8-bit
arithmetic (`skip`, `level`, bit positions) is arithmetic on `Nat` modulo 256, the 32-bit
address is a `Nat` below `2 ^ 32`.  A function that can hit a nil-pointer dereference
returns an `Option`; `none` is the run-time panic.

The type `net.Prefix` lives in a package that is not part of the sources at hand; its
operations `Contains` and `GetSupernet` are modelled from the specification.
-/

namespace net

/-- An IPv4 prefix: `addr` is the `uint32` address, `pfxlen` the `uint8` mask length. -/
structure Prefix where
  addr : Nat
  pfxlen : Nat
deriving DecidableEq

/-- Constructor `net.NewPfx(addr, pfxlen)`. -/
def NewPfx (addr pfxlen : Nat) : Prefix := ⟨addr, pfxlen⟩

namespace Prefix

/-- Modelled from the spec: `net.Prefix.Contains` is not among the sources.  The spec says
`contains(other)` is true iff `self.length <= other.length` and the leading `self.length`
bits of both addresses match. -/
def Contains (pfx x : Prefix) : Bool :=
  decide (pfx.pfxlen ≤ x.pfxlen) &&
    decide (pfx.addr >>> (32 - pfx.pfxlen) = x.addr >>> (32 - pfx.pfxlen))

/-- The largest `k ≤ n` such that the leading `k` bits of the 32-bit values `a` and `b`
match (agreement on the leading `k + 1` bits implies agreement on the leading `k`). -/
def commonLen (a b : Nat) : Nat → Nat
  | 0 => 0
  | k + 1 => if a >>> (32 - (k + 1)) = b >>> (32 - (k + 1)) then k + 1 else commonLen a b k

/-- Modelled from the spec: `net.Prefix.GetSupernet` is not among the sources.  The spec
says `supernet(other)` is the prefix whose length equals the count of matching leading bits
between self and other, and whose address equals that common leading-bit value (remaining
bits zero). -/
def GetSupernet (pfx x : Prefix) : Prefix :=
  ⟨(pfx.addr >>> (32 - commonLen pfx.addr x.addr 32)) <<< (32 - commonLen pfx.addr x.addr 32),
    commonLen pfx.addr x.addr 32⟩

/-- A well-formed prefix: length in `0..32`, a 32-bit address, host bits zero. -/
def WellFormed (p : Prefix) : Prop :=
  p.pfxlen ≤ 32 ∧ p.addr < 2 ^ 32 ∧ p.addr % 2 ^ (32 - p.pfxlen) = 0

instance (p : Prefix) : Decidable p.WellFormed :=
  inferInstanceAs (Decidable (p.pfxlen ≤ 32 ∧ p.addr < 2 ^ 32 ∧ p.addr % 2 ^ (32 - p.pfxlen) = 0))

end Prefix

end net

namespace lpm

open net

/-- Unsigned 8-bit addition. -/
def add8 (a b : Nat) : Nat := (a + b) % 256

/-- Unsigned 8-bit subtraction (wraps around below zero). -/
def sub8 (a b : Nat) : Nat := (a + 256 - b % 256) % 256

/-- A value of Go type `*node`: the nil pointer, or a pointer to
`node{skip, dummy, pfx, l, h}`. -/
inductive node where
  | nil : node
  | mk (skip : Nat) (dummy : Bool) (pfx : Prefix) (l h : node) : node
deriving DecidableEq

/-- The struct `LPM`. -/
structure LPM where
  root : node
  nodes : Nat
deriving DecidableEq

/-- Source `New()`: creates a new empty LPM. -/
def New : LPM := ⟨node.nil, 0⟩

/-- Source `newNode(pfx, skip, dummy)`. -/
def newNode (pfx : Prefix) (skip : Nat) (dummy : Bool) : node :=
  node.mk skip dummy pfx node.nil node.nil

/-- Source `getBitUint32(x, pos)`: `(x & (1 << (32 - pos))) != 0`, the shift count computed in
`uint8`, the shifted one truncated to `uint32`. -/
def getBitUint32 (x pos : Nat) : Bool :=
  (x &&& ((1 <<< sub8 32 pos) % 2 ^ 32)) != 0

namespace node

/-- Source `n.lpm(needle, res)`: the slice behind `res` after the call. -/
def lpm (needle : Prefix) : node → List Prefix → List Prefix
  | nil, res => res
  | mk _ dummy pfx l h, res =>
    if pfx = needle ∧ dummy = false then res ++ [pfx]
    else if pfx.Contains needle = false then res
    else h.lpm needle (l.lpm needle (if dummy = false then res ++ [pfx] else res))

/-- Source `n.dumpPfxs(res)`: `res` is passed by value and nothing is returned, so the only
observable outcome is whether the walk completes (`some ()`) or dereferences nil. -/
def dumpPfxs : node → List Prefix → Option Unit
  | nil, _ => none
  | mk _ dummy pfx l h, res =>
    let res1 := if dummy = false then res ++ [pfx] else res
    (match l with
      | nil => some ()
      | mk s d p a b => (mk s d p a b).dumpPfxs res1).bind fun _ =>
    match h with
      | nil => some ()
      | mk s d p a b => (mk s d p a b).dumpPfxs res1

/-- The prefixes held by the non-dummy nodes below (and including) `n`, in the order in
which the walk of `dumpPfxs` reaches them (self, low subtree, high subtree). -/
def leafPfxs : node → List Prefix
  | nil => []
  | mk _ dummy pfx l h => (if dummy = false then [pfx] else []) ++ (l.leafPfxs ++ h.leafPfxs)

/-- The prefixes held by all nodes (dummy or not) below and including `n`, pre-order. -/
def allPfxs : node → List Prefix
  | nil => []
  | mk _ _ pfx l h => pfx :: (l.allPfxs ++ h.allPfxs)

/-- Source `n.get(pfx)`; `some nil` is the returned nil pointer, `none` the panic of calling
`get` on a nil receiver. -/
def get : node → Prefix → Option node
  | nil, _ => none
  | mk skip dummy npfx l h, pfx =>
    if npfx = pfx then
      if dummy then some nil else some (mk skip dummy npfx l h)
    else if npfx.pfxlen > pfx.pfxlen then some nil
    else if getBitUint32 pfx.addr npfx.pfxlen then l.get pfx
    else h.get pfx

/-- Source `n.insertChildren(old, new)`, returning the updated receiver. -/
def insertChildren : node → node → Prefix → Option node
  | nil, _, _ => none
  | _, nil, _ => none
  | mk skip dummy npfx l h, mk _ od opfx ol oh, new =>
    let old1 := mk (sub8 (sub8 opfx.pfxlen npfx.pfxlen) 1) od opfx ol oh
    let l1 := if getBitUint32 opfx.addr (add8 npfx.pfxlen 1) = false then old1 else l
    let h1 := if getBitUint32 opfx.addr (add8 npfx.pfxlen 1) = false then h else old1
    let newNode1 := newNode new (sub8 (sub8 new.pfxlen npfx.pfxlen) 1) false
    if getBitUint32 new.addr (add8 npfx.pfxlen 1) = false then
      some (mk skip dummy npfx newNode1 h1)
    else some (mk skip dummy npfx l1 newNode1)

/-- Source `n.newSuperNode(pfx)`. -/
def newSuperNode : node → Prefix → Option node
  | nil, _ => none
  | mk skip dummy npfx l h, pfx =>
    insertChildren
      (newNode (pfx.GetSupernet npfx) (pfx.GetSupernet npfx).pfxlen true)
      (mk skip dummy npfx l h) pfx

/-- Source `n.insertBefore(pfx, level)`. -/
def insertBefore : node → Prefix → Nat → Option node
  | nil, _, _ => none
  | mk _ dummy npfx l h, pfx, level =>
    let tmp := mk (sub8 (sub8 npfx.pfxlen level) 1) dummy npfx l h
    if getBitUint32 pfx.addr level = false then
      some (mk (add8 (sub8 pfx.pfxlen level) 1) false pfx tmp nil)
    else
      some (mk (add8 (sub8 pfx.pfxlen level) 1) false pfx nil tmp)

/-- Source `n.insert(pfx, level)`, with the bodies of `insertLow` and `insertHigh` in place of the
two calls (see `insert_eq` for the shape of the source). -/
def insert : node → Prefix → Nat → Option node
  | nil, _, _ => none
  | mk skip dummy npfx l h, pfx, level =>
    if npfx = pfx then some (mk skip dummy npfx l h)
    else if npfx.Contains pfx = false then
      if pfx.Contains npfx then (mk skip dummy npfx l h).insertBefore pfx level
      else (mk skip dummy npfx l h).newSuperNode pfx
    else if getBitUint32 pfx.addr level = false then
      match l with
      | nil => some (mk skip dummy npfx (newNode pfx (sub8 pfx.pfxlen level) false) h)
      | mk s d p a b =>
        ((mk s d p a b).insert pfx (add8 level 1)).map fun l1 => mk skip dummy npfx l1 h
    else
      match h with
      | nil => some (mk skip dummy npfx l (newNode pfx (sub8 pfx.pfxlen level) false))
      | mk s d p a b =>
        ((mk s d p a b).insert pfx (add8 level 1)).map fun h1 => mk skip dummy npfx l h1

/-- Source `n.insertLow(pfx, level)`. -/
def insertLow : node → Prefix → Nat → Option node
  | nil, _, _ => none
  | mk skip dummy npfx nil h, pfx, level =>
    some (mk skip dummy npfx (newNode pfx (sub8 pfx.pfxlen level) false) h)
  | mk skip dummy npfx l h, pfx, level =>
    (l.insert pfx (add8 level 1)).map fun l1 => mk skip dummy npfx l1 h

/-- Source `n.insertHigh(pfx, level)`. -/
def insertHigh : node → Prefix → Nat → Option node
  | nil, _, _ => none
  | mk skip dummy npfx l nil, pfx, level =>
    some (mk skip dummy npfx l (newNode pfx (sub8 pfx.pfxlen level) false))
  | mk skip dummy npfx l h, pfx, level =>
    (h.insert pfx (add8 level 1)).map fun h1 => mk skip dummy npfx l h1

end node

namespace LPM

set_option linter.dupNamespace false in
/-- Source `lpm.LPM(pfx)`; the nil slice and the empty slice are both `[]`. -/
def LPM (t : LPM) (pfx : Prefix) : List Prefix :=
  match t.root with
  | node.nil => []
  | node.mk s d p l h => (node.mk s d p l h).lpm pfx []

/-- Source `lpm.Get(pfx, moreSpecifics)`; `none` is a nil-pointer panic. -/
def Get (t : lpm.LPM) (pfx : Prefix) (moreSpecifics : Bool) : Option (List Prefix) :=
  match t.root with
  | node.nil => some []
  | node.mk s d p l h =>
    ((node.mk s d p l h).get pfx).bind fun n =>
      if moreSpecifics then (n.dumpPfxs []).bind fun _ => some []
      else
        match n with
        | node.nil => none
        | node.mk _ _ q _ _ => some [q]

/-- Source `lpm.Insert(pfx)`, returning the updated trie. -/
def Insert (t : lpm.LPM) (pfx : Prefix) : Option lpm.LPM :=
  match t.root with
  | node.nil => some ⟨newNode pfx pfx.pfxlen false, t.nodes⟩
  | node.mk s d p l h =>
    ((node.mk s d p l h).insert pfx (add8 p.pfxlen 1)).map fun r => ⟨r, t.nodes⟩

end LPM

/-- The trie after `Insert` has been called with each element of `ps` in turn on `t`. -/
def insertAll : LPM → List Prefix → Option LPM
  | t, [] => some t
  | t, p :: ps => (t.Insert p).bind fun t1 => insertAll t1 ps

/-- The trie built from the empty trie by inserting the elements of `ps` in turn. -/
def build (ps : List Prefix) : Option LPM := insertAll New ps

end lpm

/-! ## Invariants -/

namespace lpm

open net

namespace node

/-- The structural invariant kept by `insert`: every node holds a well-formed prefix that
contains the prefix of every node below it, and is strictly shorter than the prefix of
every non-dummy node below it. -/
def Inv : node → Prop
  | nil => True
  | mk _ _ pfx l h =>
    pfx.WellFormed ∧ (∀ q ∈ l.allPfxs ++ h.allPfxs, pfx.Contains q = true) ∧
      (∀ q ∈ l.leafPfxs ++ h.leafPfxs, pfx.pfxlen < q.pfxlen) ∧ l.Inv ∧ h.Inv

/-- The prefix held by the node itself (none for the nil pointer). -/
def rootPfx : node → Option Prefix
  | nil => none
  | mk _ _ pfx _ _ => some pfx

/-- Parent-contains-child: the prefix of every node contains the prefix of each of its
children, throughout the tree. -/
def ParentContainsChild : node → Prop
  | nil => True
  | mk _ _ pfx l h =>
    (∀ q ∈ l.rootPfx, pfx.Contains q = true) ∧ (∀ q ∈ h.rootPfx, pfx.Contains q = true) ∧
      l.ParentContainsChild ∧ h.ParentContainsChild

/-- Branch arity: every dummy node has both its low and its high child. -/
def BothChildren : node → Prop
  | nil => True
  | mk _ dummy _ l h =>
    (dummy = true → l ≠ nil ∧ h ≠ nil) ∧ l.BothChildren ∧ h.BothChildren

/-- The number of nodes on the longest path from the node down to a node below it. -/
def depth : node → Nat
  | nil => 0
  | mk _ _ _ l h => 1 + max l.depth h.depth

end node

end lpm

/-! ## Facts about prefixes -/

namespace net.Prefix

theorem shiftRight_congr {x y j k : Nat} (hjk : j ≤ k) (h : x >>> j = y >>> j) :
    x >>> k = y >>> k := by
  obtain ⟨d, rfl⟩ := Nat.exists_eq_add_of_le hjk
  rw [Nat.shiftRight_add, Nat.shiftRight_add, h]

theorem Contains_iff (p x : Prefix) :
    p.Contains x = true ↔
      p.pfxlen ≤ x.pfxlen ∧ p.addr >>> (32 - p.pfxlen) = x.addr >>> (32 - p.pfxlen) := by
  simp [Contains]

theorem Contains_refl (p : Prefix) : p.Contains p = true := by
  simp [Contains]

theorem Contains_trans {a b c : Prefix} (hab : a.Contains b = true)
    (hbc : b.Contains c = true) : a.Contains c = true := by
  rw [Contains_iff] at *
  refine ⟨le_trans hab.1 hbc.1, hab.2.trans ?_⟩
  exact shiftRight_congr (Nat.sub_le_sub_left hab.1 32) hbc.2

/-- Two prefixes that contain a common third one form a chain. -/
theorem Contains_of_common {a b n : Prefix} (han : a.Contains n = true)
    (hbn : b.Contains n = true) (hlen : a.pfxlen ≤ b.pfxlen) : a.Contains b = true := by
  rw [Contains_iff] at *
  refine ⟨hlen, han.2.trans ?_⟩
  exact (shiftRight_congr (Nat.sub_le_sub_left hlen 32) hbn.2).symm

theorem pfxlen_le_of_Contains {a b : Prefix} (h : a.Contains b = true) :
    a.pfxlen ≤ b.pfxlen :=
  ((Contains_iff a b).1 h).1

theorem pfxlen_lt_of_not_Contains {a b : Prefix} (hab : a.Contains b = true)
    (hba : b.Contains a = false) : a.pfxlen < b.pfxlen := by
  rw [Contains_iff] at hab
  rcases Nat.lt_or_ge a.pfxlen b.pfxlen with h | h
  · exact h
  · exfalso
    have hlen : a.pfxlen = b.pfxlen := le_antisymm hab.1 h
    have : b.Contains a = true := by
      rw [Contains_iff]
      exact ⟨h, by rw [← hlen]; exact hab.2.symm⟩
    rw [this] at hba
    exact Bool.noConfusion hba

theorem eq_of_Contains_of_pfxlen_eq {a b : Prefix} (ha : a.WellFormed) (hb : b.WellFormed)
    (hab : a.Contains b = true) (hlen : a.pfxlen = b.pfxlen) : a = b := by
  rw [Contains_iff] at hab
  obtain ⟨_, _, ha0⟩ := ha
  obtain ⟨_, _, hb0⟩ := hb
  have h2 := hab.2
  rw [Nat.shiftRight_eq_div_pow, Nat.shiftRight_eq_div_pow] at h2
  rw [← hlen] at hb0
  have hA := Nat.div_add_mod a.addr (2 ^ (32 - a.pfxlen))
  have hB := Nat.div_add_mod b.addr (2 ^ (32 - a.pfxlen))
  rw [ha0] at hA
  rw [hb0, ← h2] at hB
  cases a
  cases b
  simp only [Prefix.mk.injEq] at *
  exact ⟨hA.symm.trans hB, hlen⟩

/-- A well-formed prefix that contains a different well-formed prefix is strictly shorter. -/
theorem pfxlen_lt_of_Contains_ne {a b : Prefix} (ha : a.WellFormed) (hb : b.WellFormed)
    (hab : a.Contains b = true) (hne : a ≠ b) : a.pfxlen < b.pfxlen := by
  rcases Nat.lt_or_ge a.pfxlen b.pfxlen with h | h
  · exact h
  · exact absurd (eq_of_Contains_of_pfxlen_eq ha hb hab
      (le_antisymm (pfxlen_le_of_Contains hab) h)) hne

theorem commonLen_le (a b : Nat) : ∀ n, commonLen a b n ≤ n
  | 0 => Nat.le_refl 0
  | k + 1 => by
    unfold commonLen
    split
    · exact Nat.le_refl _
    · exact Nat.le_succ_of_le (commonLen_le a b k)

theorem commonLen_agree {a b : Nat} (ha : a < 2 ^ 32) (hb : b < 2 ^ 32) :
    ∀ n, a >>> (32 - commonLen a b n) = b >>> (32 - commonLen a b n)
  | 0 => by
    simp only [commonLen, Nat.sub_zero, Nat.shiftRight_eq_div_pow]
    rw [Nat.div_eq_of_lt ha, Nat.div_eq_of_lt hb]
  | k + 1 => by
    unfold commonLen
    split
    · assumption
    · exact commonLen_agree ha hb k

theorem le_commonLen {a b : Nat} :
    ∀ n k, k ≤ n → a >>> (32 - k) = b >>> (32 - k) → k ≤ commonLen a b n
  | 0, k, hk, _ => by omega
  | n + 1, k, hk, h => by
    unfold commonLen
    split
    · exact hk
    · rename_i hne
      have hk1 : k ≠ n + 1 := fun e => hne (e ▸ h)
      exact le_commonLen n k (by omega) h

theorem GetSupernet_pfxlen (p x : Prefix) :
    (p.GetSupernet x).pfxlen = commonLen p.addr x.addr 32 := rfl

theorem GetSupernet_wellFormed {p : Prefix} (x : Prefix) (hp : p.WellFormed) :
    (p.GetSupernet x).WellFormed := by
  refine ⟨commonLen_le _ _ 32, ?_, ?_⟩
  · simp only [GetSupernet, Nat.shiftRight_eq_div_pow, Nat.shiftLeft_eq]
    exact lt_of_le_of_lt (Nat.div_mul_le_self _ _) hp.2.1
  · simp only [GetSupernet, Nat.shiftLeft_eq]
    exact Nat.mul_mod_left _ _

theorem GetSupernet_shift (p x : Prefix) :
    (p.GetSupernet x).addr >>> (32 - (p.GetSupernet x).pfxlen) =
      p.addr >>> (32 - (p.GetSupernet x).pfxlen) := by
  simp only [GetSupernet, Nat.shiftLeft_shiftRight]

/-- When neither of two well-formed prefixes contains the other, their supernet is strictly
shorter than both. -/
theorem GetSupernet_pfxlen_lt {p x : Prefix} (hp : p.WellFormed) (hx : x.WellFormed)
    (hpx : p.Contains x = false) (hxp : x.Contains p = false) :
    (p.GetSupernet x).pfxlen < p.pfxlen ∧ (p.GetSupernet x).pfxlen < x.pfxlen := by
  rw [GetSupernet_pfxlen]
  have hag := commonLen_agree hp.2.1 hx.2.1 32
  by_contra hcon
  rcases Nat.le_total p.pfxlen x.pfxlen with hle | hle
  · have hc : p.pfxlen ≤ commonLen p.addr x.addr 32 := by omega
    have : p.Contains x = true := by
      rw [Contains_iff]
      exact ⟨hle, shiftRight_congr (Nat.sub_le_sub_left hc 32) hag⟩
    rw [this] at hpx
    exact Bool.noConfusion hpx
  · have hc : x.pfxlen ≤ commonLen p.addr x.addr 32 := by omega
    have : x.Contains p = true := by
      rw [Contains_iff]
      exact ⟨hle, (shiftRight_congr (Nat.sub_le_sub_left hc 32) hag).symm⟩
    rw [this] at hxp
    exact Bool.noConfusion hxp

theorem GetSupernet_Contains_left {p x : Prefix}
    (hlen : (p.GetSupernet x).pfxlen ≤ p.pfxlen) : (p.GetSupernet x).Contains p = true := by
  rw [Contains_iff]
  exact ⟨hlen, GetSupernet_shift p x⟩

theorem GetSupernet_Contains_right {p x : Prefix} (hp : p.WellFormed) (hx : x.WellFormed)
    (hlen : (p.GetSupernet x).pfxlen ≤ x.pfxlen) : (p.GetSupernet x).Contains x = true := by
  rw [Contains_iff]
  refine ⟨hlen, (GetSupernet_shift p x).trans ?_⟩
  rw [GetSupernet_pfxlen]
  exact commonLen_agree hp.2.1 hx.2.1 32

/-- A prefix of length at most 32 that contains both arguments contains their supernet. -/
theorem Contains_GetSupernet {c p x : Prefix} (hc : c.pfxlen ≤ 32)
    (hcp : c.Contains p = true) (hcx : c.Contains x = true)
    (hlen : (p.GetSupernet x).pfxlen ≤ p.pfxlen) : c.Contains (p.GetSupernet x) = true := by
  refine Contains_of_common hcp (GetSupernet_Contains_left hlen) ?_
  rw [GetSupernet_pfxlen]
  refine le_commonLen 32 c.pfxlen hc ?_
  rw [Contains_iff] at hcp hcx
  exact hcp.2.symm.trans hcx.2

end net.Prefix

/-! ## The shape of `insert` -/

namespace lpm

open net

namespace node

/-- The function `insert` written as in the source, with the calls of `insertLow` and
`insertHigh`. -/
theorem insert_eq (skip : Nat) (dummy : Bool) (npfx : Prefix) (l h : node) (pfx : Prefix)
    (level : Nat) :
    (mk skip dummy npfx l h).insert pfx level =
      if npfx = pfx then some (mk skip dummy npfx l h)
      else if npfx.Contains pfx = false then
        if pfx.Contains npfx then (mk skip dummy npfx l h).insertBefore pfx level
        else (mk skip dummy npfx l h).newSuperNode pfx
      else if getBitUint32 pfx.addr level = false then (mk skip dummy npfx l h).insertLow pfx level
      else (mk skip dummy npfx l h).insertHigh pfx level := by
  cases l <;> cases h <;> simp [insert, insertLow, insertHigh]

/-- The possible outcomes of `insert` on a non-nil node. -/
theorem insert_cases {skip : Nat} {dummy : Bool} {npfx : Prefix} {l h : node} {pfx : Prefix}
    {level : Nat} {r : node} (hr : (mk skip dummy npfx l h).insert pfx level = some r) :
    (npfx = pfx ∧ r = mk skip dummy npfx l h) ∨
    (npfx.Contains pfx = false ∧ pfx.Contains npfx = true ∧
      (mk skip dummy npfx l h).insertBefore pfx level = some r) ∨
    (npfx.Contains pfx = false ∧ pfx.Contains npfx = false ∧
      (mk skip dummy npfx l h).newSuperNode pfx = some r) ∨
    (npfx ≠ pfx ∧ npfx.Contains pfx = true ∧ getBitUint32 pfx.addr level = false ∧ l = nil ∧
      r = mk skip dummy npfx (newNode pfx (sub8 pfx.pfxlen level) false) h) ∨
    (npfx ≠ pfx ∧ npfx.Contains pfx = true ∧ getBitUint32 pfx.addr level = false ∧ l ≠ nil ∧
      ∃ l1, l.insert pfx (add8 level 1) = some l1 ∧ r = mk skip dummy npfx l1 h) ∨
    (npfx ≠ pfx ∧ npfx.Contains pfx = true ∧ getBitUint32 pfx.addr level = true ∧ h = nil ∧
      r = mk skip dummy npfx l (newNode pfx (sub8 pfx.pfxlen level) false)) ∨
    (npfx ≠ pfx ∧ npfx.Contains pfx = true ∧ getBitUint32 pfx.addr level = true ∧ h ≠ nil ∧
      ∃ h1, h.insert pfx (add8 level 1) = some h1 ∧ r = mk skip dummy npfx l h1) := by
  unfold insert at hr
  by_cases h1 : npfx = pfx
  · rw [if_pos h1] at hr
    exact Or.inl ⟨h1, (Option.some.inj hr).symm⟩
  rw [if_neg h1] at hr
  by_cases h2 : npfx.Contains pfx = false
  · rw [if_pos h2] at hr
    by_cases h3 : pfx.Contains npfx = true
    · rw [if_pos h3] at hr
      exact Or.inr (Or.inl ⟨h2, h3, hr⟩)
    · rw [if_neg h3] at hr
      exact Or.inr (Or.inr (Or.inl ⟨h2, by simpa using h3, hr⟩))
  rw [if_neg h2] at hr
  have h2t : npfx.Contains pfx = true := by simpa using h2
  by_cases h4 : getBitUint32 pfx.addr level = false
  · rw [if_pos h4] at hr
    cases l with
    | nil =>
      exact Or.inr (Or.inr (Or.inr (Or.inl ⟨h1, h2t, h4, rfl, (Option.some.inj hr).symm⟩)))
    | mk s d p a b =>
      simp only [Option.map_eq_some'] at hr
      obtain ⟨l1, hl1, rfl⟩ := hr
      exact Or.inr (Or.inr (Or.inr (Or.inr (Or.inl
        ⟨h1, h2t, h4, fun e => node.noConfusion e, l1, hl1, rfl⟩))))
  · rw [if_neg h4] at hr
    have h4t : getBitUint32 pfx.addr level = true := by simpa using h4
    cases h with
    | nil =>
      exact Or.inr (Or.inr (Or.inr (Or.inr (Or.inr (Or.inl
        ⟨h1, h2t, h4t, rfl, (Option.some.inj hr).symm⟩)))))
    | mk s d p a b =>
      simp only [Option.map_eq_some'] at hr
      obtain ⟨r1, hr1, rfl⟩ := hr
      exact Or.inr (Or.inr (Or.inr (Or.inr (Or.inr (Or.inr
        ⟨h1, h2t, h4t, fun e => node.noConfusion e, r1, hr1, rfl⟩)))))

/-- The outcome of `insertBefore`: a non-dummy node for `pfx` with the old node (its skip
rewritten) as its only child. -/
theorem insertBefore_cases {skip : Nat} {dummy : Bool} {npfx : Prefix} {l h : node}
    {pfx : Prefix} {level : Nat} {r : node}
    (hr : (mk skip dummy npfx l h).insertBefore pfx level = some r) :
    ∃ s1 s2, r = mk s1 false pfx (mk s2 dummy npfx l h) nil ∨
      r = mk s1 false pfx nil (mk s2 dummy npfx l h) := by
  unfold insertBefore at hr
  refine ⟨add8 (sub8 pfx.pfxlen level) 1, sub8 (sub8 npfx.pfxlen level) 1, ?_⟩
  by_cases hb : getBitUint32 pfx.addr level = false
  · simp only [hb, if_true] at hr
    exact Or.inl (Option.some.inj hr).symm
  · simp only [hb, if_false] at hr
    exact Or.inr (Option.some.inj hr).symm

/-- The outcome of `newSuperNode`: a dummy node for the supernet whose children are among
the old node (its skip rewritten) and a fresh leaf for `pfx`. -/
theorem newSuperNode_cases {skip : Nat} {dummy : Bool} {npfx : Prefix} {l h : node}
    {pfx : Prefix} {r : node} (hr : (mk skip dummy npfx l h).newSuperNode pfx = some r) :
    ∃ s1 s2 s3 c1 c2, r = mk s1 true (pfx.GetSupernet npfx) c1 c2 ∧
      (c1 = nil ∨ c1 = mk s2 dummy npfx l h ∨ c1 = mk s3 false pfx nil nil) ∧
      (c2 = nil ∨ c2 = mk s2 dummy npfx l h ∨ c2 = mk s3 false pfx nil nil) := by
  unfold newSuperNode insertChildren newNode at hr
  simp only at hr
  refine ⟨(pfx.GetSupernet npfx).pfxlen,
    sub8 (sub8 npfx.pfxlen (pfx.GetSupernet npfx).pfxlen) 1,
    sub8 (sub8 pfx.pfxlen (pfx.GetSupernet npfx).pfxlen) 1, ?_⟩
  by_cases hb : getBitUint32 pfx.addr (add8 (pfx.GetSupernet npfx).pfxlen 1) = false <;>
    by_cases hc : getBitUint32 npfx.addr (add8 (pfx.GetSupernet npfx).pfxlen 1) = false <;>
    simp only [hb, hc, if_true, if_false] at hr <;>
    exact ⟨_, _, (Option.some.inj hr).symm, by simp, by simp⟩

end node

end lpm

/-! ## The invariant is kept by `insert` -/

namespace lpm

open net

namespace node

theorem mem_leafPfxs_mk {s : Nat} {d : Bool} {p : Prefix} {l h : node} {q : Prefix} :
    q ∈ (mk s d p l h).leafPfxs ↔ (d = false ∧ q = p) ∨ q ∈ l.leafPfxs ∨ q ∈ h.leafPfxs := by
  cases d <;> simp [leafPfxs]

theorem leafPfxs_nil : nil.leafPfxs = [] := rfl

theorem allPfxs_nil : nil.allPfxs = [] := rfl

theorem mem_allPfxs_mk {s : Nat} {d : Bool} {p : Prefix} {l h : node} {q : Prefix} :
    q ∈ (mk s d p l h).allPfxs ↔ q = p ∨ q ∈ l.allPfxs ∨ q ∈ h.allPfxs := by
  simp [allPfxs]

theorem Inv_mk_iff {s : Nat} {d : Bool} {p : Prefix} {l h : node} :
    (mk s d p l h).Inv ↔
      p.WellFormed ∧ (∀ q, q ∈ l.allPfxs ∨ q ∈ h.allPfxs → p.Contains q = true) ∧
        (∀ q, q ∈ l.leafPfxs ∨ q ∈ h.leafPfxs → p.pfxlen < q.pfxlen) ∧ l.Inv ∧ h.Inv := by
  simp only [Inv, List.mem_append]

/-- Every non-dummy prefix after `insert` is the inserted one or was there before. -/
theorem insert_leafPfxs : ∀ (n : node) {pfx : Prefix} {level : Nat} {r : node},
    n.insert pfx level = some r → ∀ q ∈ r.leafPfxs, q = pfx ∨ q ∈ n.leafPfxs
  | nil, _, _, _, hr => by simp [insert] at hr
  | mk s d p l h, pfx, level, r, hr => by
    intro q hq
    rcases insert_cases hr with ⟨_, rfl⟩ | ⟨_, _, hb⟩ | ⟨_, _, hs⟩ | ⟨_, _, _, _, rfl⟩ |
      ⟨_, _, _, _, l1, hl1, rfl⟩ | ⟨_, _, _, _, rfl⟩ | ⟨_, _, _, _, h1, hh1, rfl⟩
    · exact Or.inr hq
    · obtain ⟨s1, s2, rfl | rfl⟩ := insertBefore_cases hb <;>
        simp [mem_leafPfxs_mk, leafPfxs_nil] at hq ⊢ <;> tauto
    · obtain ⟨s1, s2, s3, c1, c2, rfl, hc1, hc2⟩ := newSuperNode_cases hs
      rcases hc1 with rfl | rfl | rfl <;> rcases hc2 with rfl | rfl | rfl <;>
        simp [mem_leafPfxs_mk, leafPfxs_nil] at hq ⊢ <;> tauto
    · simp [mem_leafPfxs_mk, newNode, leafPfxs_nil] at hq ⊢
      tauto
    · rw [mem_leafPfxs_mk] at hq ⊢
      rcases hq with hq | hq | hq
      · exact Or.inr (Or.inl hq)
      · rcases insert_leafPfxs l hl1 q hq with e | e
        · exact Or.inl e
        · exact Or.inr (Or.inr (Or.inl e))
      · exact Or.inr (Or.inr (Or.inr hq))
    · simp [mem_leafPfxs_mk, newNode, leafPfxs_nil] at hq ⊢
      tauto
    · rw [mem_leafPfxs_mk] at hq ⊢
      rcases hq with hq | hq | hq
      · exact Or.inr (Or.inl hq)
      · exact Or.inr (Or.inr (Or.inl hq))
      · rcases insert_leafPfxs h hh1 q hq with e | e
        · exact Or.inl e
        · exact Or.inr (Or.inr (Or.inr e))

theorem Inv_skip {s s1 : Nat} {d : Bool} {p : Prefix} {l h : node}
    (hn : (mk s d p l h).Inv) : (mk s1 d p l h).Inv := hn

theorem Inv_newNode {pfx : Prefix} (hp : pfx.WellFormed) (k : Nat) :
    (newNode pfx k false).Inv := by
  simp [newNode, Inv_mk_iff, leafPfxs_nil, allPfxs_nil, hp, Inv]

/-- The root prefix of a tree that satisfies the invariant contains every prefix in it. -/
theorem Inv_Contains_allPfxs {s : Nat} {d : Bool} {p : Prefix} {l h : node}
    (hn : (mk s d p l h).Inv) : ∀ q ∈ (mk s d p l h).allPfxs, p.Contains q = true := by
  intro q hq
  rw [mem_allPfxs_mk] at hq
  rcases hq with rfl | hq
  · exact Prefix.Contains_refl _
  · exact (Inv_mk_iff.1 hn).2.1 q hq

/-- The root prefix of a tree that satisfies the invariant is at most as long as every
non-dummy prefix in it. -/
theorem Inv_pfxlen_le_leafPfxs {s : Nat} {d : Bool} {p : Prefix} {l h : node}
    (hn : (mk s d p l h).Inv) : ∀ q ∈ (mk s d p l h).leafPfxs, p.pfxlen ≤ q.pfxlen := by
  intro q hq
  rw [mem_leafPfxs_mk] at hq
  rcases hq with ⟨_, rfl⟩ | hq
  · exact Nat.le_refl _
  · exact Nat.le_of_lt ((Inv_mk_iff.1 hn).2.2.1 q hq)

/-- A prefix of length at most 32 that contains the inserted prefix and everything in the
tree still contains everything in the tree after `insert`. -/
theorem insert_Contains_allPfxs : ∀ (n : node) {pfx : Prefix} {level : Nat} {r : node}
    {c : Prefix}, n.Inv → pfx.WellFormed → c.pfxlen ≤ 32 → c.Contains pfx = true →
    (∀ q ∈ n.allPfxs, c.Contains q = true) → n.insert pfx level = some r →
    ∀ q ∈ r.allPfxs, c.Contains q = true
  | nil, _, _, _, _, _, _, _, _, _, hr => by simp [insert] at hr
  | mk s d p l h, pfx, level, r, c, hn, hp, hc, hcp, hall, hr => by
    intro q hq
    have hcn : c.Contains p = true := hall p (mem_allPfxs_mk.2 (Or.inl rfl))
    have hsub : ∀ (s2 : Nat), ∀ q ∈ (mk s2 d p l h).allPfxs, c.Contains q = true := by
      intro s2 q hq
      exact hall q (by rw [mem_allPfxs_mk] at hq ⊢; exact hq)
    rcases insert_cases hr with ⟨_, rfl⟩ | ⟨_, _, hb⟩ | ⟨hnp, hpn, hs⟩ | ⟨_, _, _, _, rfl⟩ |
      ⟨_, _, _, _, l1, hl1, rfl⟩ | ⟨_, _, _, _, rfl⟩ | ⟨_, _, _, _, h1, hh1, rfl⟩
    · exact hall q hq
    · obtain ⟨s1, s2, rfl | rfl⟩ := insertBefore_cases hb <;>
        rw [mem_allPfxs_mk] at hq <;> simp only [allPfxs_nil, List.not_mem_nil] at hq
      · rcases hq with rfl | hq | hq
        · exact hcp
        · exact hsub s2 q hq
        · exact hq.elim
      · rcases hq with rfl | hq | hq
        · exact hcp
        · exact hq.elim
        · exact hsub s2 q hq
    · obtain ⟨s1, s2, s3, c1, c2, rfl, hc1, hc2⟩ := newSuperNode_cases hs
      have hlt := Prefix.GetSupernet_pfxlen_lt hp (Inv_mk_iff.1 hn).1 hpn hnp
      have key : ∀ x, (x = nil ∨ x = mk s2 d p l h ∨ x = mk s3 false pfx nil nil) →
          ∀ q ∈ x.allPfxs, c.Contains q = true := by
        intro x hx q hq
        rcases hx with rfl | rfl | rfl
        · simp [allPfxs_nil] at hq
        · exact hsub s2 q hq
        · simp only [mem_allPfxs_mk, allPfxs_nil, List.not_mem_nil, or_false] at hq
          exact hq ▸ hcp
      rw [mem_allPfxs_mk] at hq
      rcases hq with rfl | hq | hq
      · exact Prefix.Contains_GetSupernet hc hcp hcn (Nat.le_of_lt hlt.1)
      · exact key c1 hc1 q hq
      · exact key c2 hc2 q hq
    · simp only [mem_allPfxs_mk, newNode, allPfxs_nil, List.not_mem_nil, or_false, false_or] at hq
      rcases hq with rfl | rfl | hq
      · exact hcn
      · exact hcp
      · exact hall q (mem_allPfxs_mk.2 (Or.inr (Or.inr hq)))
    · rw [mem_allPfxs_mk] at hq
      rcases hq with rfl | hq | hq
      · exact hcn
      · exact insert_Contains_allPfxs l (Inv_mk_iff.1 hn).2.2.2.1 hp hc hcp
          (fun x hx => hall x (mem_allPfxs_mk.2 (Or.inr (Or.inl hx)))) hl1 q hq
      · exact hall q (mem_allPfxs_mk.2 (Or.inr (Or.inr hq)))
    · simp only [mem_allPfxs_mk, newNode, allPfxs_nil, List.not_mem_nil, or_false, false_or] at hq
      rcases hq with rfl | hq | rfl
      · exact hcn
      · exact hall q (mem_allPfxs_mk.2 (Or.inr (Or.inl hq)))
      · exact hcp
    · rw [mem_allPfxs_mk] at hq
      rcases hq with rfl | hq | hq
      · exact hcn
      · exact hall q (mem_allPfxs_mk.2 (Or.inr (Or.inl hq)))
      · exact insert_Contains_allPfxs h (Inv_mk_iff.1 hn).2.2.2.2 hp hc hcp
          (fun x hx => hall x (mem_allPfxs_mk.2 (Or.inr (Or.inr hx)))) hh1 q hq

/-- The function `insert` keeps the invariant when given a well-formed prefix. -/
theorem insert_Inv : ∀ (n : node) {pfx : Prefix} {level : Nat} {r : node},
    n.Inv → pfx.WellFormed → n.insert pfx level = some r → r.Inv
  | nil, _, _, _, _, _, hr => by simp [insert] at hr
  | mk s d p l h, pfx, level, r, hn, hp, hr => by
    obtain ⟨hwp, hcon, hlen, hl, hh⟩ := Inv_mk_iff.1 hn
    rcases insert_cases hr with ⟨_, rfl⟩ | ⟨hnp, hpn, hb⟩ | ⟨hnp, hpn, hs⟩ |
      ⟨hne, hnp, _, _, rfl⟩ | ⟨hne, hnp, _, _, l1, hl1, rfl⟩ | ⟨hne, hnp, _, _, rfl⟩ |
      ⟨hne, hnp, _, _, h1, hh1, rfl⟩
    · exact hn
    · have hlt := Prefix.pfxlen_lt_of_not_Contains hpn hnp
      have hA : ∀ (s2 : Nat), ∀ q ∈ (mk s2 d p l h).allPfxs, pfx.Contains q = true :=
        fun s2 q hq => Prefix.Contains_trans hpn (Inv_Contains_allPfxs (Inv_skip hn) q hq)
      have hL : ∀ (s2 : Nat), ∀ q ∈ (mk s2 d p l h).leafPfxs, pfx.pfxlen < q.pfxlen :=
        fun s2 q hq => lt_of_lt_of_le hlt (Inv_pfxlen_le_leafPfxs (Inv_skip hn) q hq)
      obtain ⟨s1, s2, rfl | rfl⟩ := insertBefore_cases hb <;> rw [Inv_mk_iff] <;>
        simp only [allPfxs_nil, leafPfxs_nil, List.not_mem_nil, or_false, false_or]
      · exact ⟨hp, hA s2, hL s2, Inv_skip hn, trivial⟩
      · exact ⟨hp, hA s2, hL s2, trivial, Inv_skip hn⟩
    · obtain ⟨s1, s2, s3, c1, c2, rfl, hc1, hc2⟩ := newSuperNode_cases hs
      have hlt := Prefix.GetSupernet_pfxlen_lt hp hwp hpn hnp
      have hSp := Prefix.GetSupernet_Contains_left (Nat.le_of_lt hlt.1)
      have hSn := Prefix.GetSupernet_Contains_right hp hwp (Nat.le_of_lt hlt.2)
      have key : ∀ x, (x = nil ∨ x = mk s2 d p l h ∨ x = mk s3 false pfx nil nil) →
          (∀ q ∈ x.allPfxs, (pfx.GetSupernet p).Contains q = true) ∧
          (∀ q ∈ x.leafPfxs, (pfx.GetSupernet p).pfxlen < q.pfxlen) ∧ x.Inv := by
        intro x hx
        rcases hx with rfl | rfl | rfl
        · simp [allPfxs_nil, leafPfxs_nil, Inv]
        · exact ⟨fun q hq => Prefix.Contains_trans hSn (Inv_Contains_allPfxs (Inv_skip hn) q hq),
            fun q hq => lt_of_lt_of_le hlt.2 (Inv_pfxlen_le_leafPfxs (Inv_skip hn) q hq),
            Inv_skip hn⟩
        · refine ⟨fun q hq => ?_, fun q hq => ?_, Inv_newNode hp s3⟩
          · simp only [mem_allPfxs_mk, allPfxs_nil, List.not_mem_nil, or_false] at hq
            exact hq ▸ hSp
          · simp only [mem_leafPfxs_mk, leafPfxs_nil, List.not_mem_nil, or_false] at hq
            exact hq.2 ▸ hlt.1
      rw [Inv_mk_iff]
      refine ⟨Prefix.GetSupernet_wellFormed p hp, ?_, ?_, (key c1 hc1).2.2, (key c2 hc2).2.2⟩
      · rintro q (hq | hq)
        · exact (key c1 hc1).1 q hq
        · exact (key c2 hc2).1 q hq
      · rintro q (hq | hq)
        · exact (key c1 hc1).2.1 q hq
        · exact (key c2 hc2).2.1 q hq
    · rw [Inv_mk_iff]
      refine ⟨hwp, ?_, ?_, Inv_newNode hp _, hh⟩
      · rintro q (hq | hq)
        · simp only [newNode, mem_allPfxs_mk, allPfxs_nil, List.not_mem_nil, or_false] at hq
          exact hq ▸ hnp
        · exact hcon q (Or.inr hq)
      · rintro q (hq | hq)
        · simp only [newNode, mem_leafPfxs_mk, leafPfxs_nil, List.not_mem_nil, or_false] at hq
          exact hq.2 ▸ Prefix.pfxlen_lt_of_Contains_ne hwp hp hnp hne
        · exact hlen q (Or.inr hq)
    · rw [Inv_mk_iff]
      refine ⟨hwp, ?_, ?_, insert_Inv l hl hp hl1, hh⟩
      · rintro q (hq | hq)
        · exact insert_Contains_allPfxs l hl hp hwp.1 hnp (fun x hx => hcon x (Or.inl hx)) hl1 q hq
        · exact hcon q (Or.inr hq)
      · rintro q (hq | hq)
        · rcases insert_leafPfxs l hl1 q hq with rfl | hq
          · exact Prefix.pfxlen_lt_of_Contains_ne hwp hp hnp hne
          · exact hlen q (Or.inl hq)
        · exact hlen q (Or.inr hq)
    · rw [Inv_mk_iff]
      refine ⟨hwp, ?_, ?_, hl, Inv_newNode hp _⟩
      · rintro q (hq | hq)
        · exact hcon q (Or.inl hq)
        · simp only [newNode, mem_allPfxs_mk, allPfxs_nil, List.not_mem_nil, or_false] at hq
          exact hq ▸ hnp
      · rintro q (hq | hq)
        · exact hlen q (Or.inl hq)
        · simp only [newNode, mem_leafPfxs_mk, leafPfxs_nil, List.not_mem_nil, or_false] at hq
          exact hq.2 ▸ Prefix.pfxlen_lt_of_Contains_ne hwp hp hnp hne
    · rw [Inv_mk_iff]
      refine ⟨hwp, ?_, ?_, hl, insert_Inv h hh hp hh1⟩
      · rintro q (hq | hq)
        · exact hcon q (Or.inl hq)
        · exact insert_Contains_allPfxs h hh hp hwp.1 hnp (fun x hx => hcon x (Or.inr hx)) hh1 q hq
      · rintro q (hq | hq)
        · exact hlen q (Or.inl hq)
        · rcases insert_leafPfxs h hh1 q hq with rfl | hq
          · exact Prefix.pfxlen_lt_of_Contains_ne hwp hp hnp hne
          · exact hlen q (Or.inr hq)

end node

end lpm

/-! ## Tries reachable from the empty trie -/

namespace lpm

open net

namespace node

theorem leafPfxs_subset_allPfxs : ∀ (n : node), ∀ q ∈ n.leafPfxs, q ∈ n.allPfxs
  | nil, q, hq => by simp [leafPfxs_nil] at hq
  | mk s d p l h, q, hq => by
    rw [mem_leafPfxs_mk] at hq
    rw [mem_allPfxs_mk]
    rcases hq with ⟨_, rfl⟩ | hq | hq
    · exact Or.inl rfl
    · exact Or.inr (Or.inl (leafPfxs_subset_allPfxs l q hq))
    · exact Or.inr (Or.inr (leafPfxs_subset_allPfxs h q hq))

/-- On a non-nil receiver `insert` returns (it does not dereference nil). -/
theorem insert_isSome : ∀ (n : node) (pfx : Prefix) (level : Nat), n ≠ nil →
    ∃ r, n.insert pfx level = some r
  | nil, _, _, hn => absurd rfl hn
  | mk s d p l h, pfx, level, _ => by
    rw [insert_eq]
    split_ifs
    · exact ⟨_, rfl⟩
    · simp only [insertBefore]
      split_ifs <;> exact ⟨_, rfl⟩
    · simp only [newSuperNode, insertChildren, newNode]
      split_ifs <;> exact ⟨_, rfl⟩
    · cases l with
      | nil => exact ⟨_, rfl⟩
      | mk s1 d1 p1 a b =>
        obtain ⟨r1, hr1⟩ := insert_isSome (mk s1 d1 p1 a b) pfx (add8 level 1)
          (fun e => node.noConfusion e)
        exact ⟨mk s d p r1 h, by simp only [insertLow, hr1, Option.map_some']⟩
    · cases h with
      | nil => cases l <;> exact ⟨_, rfl⟩
      | mk s1 d1 p1 a b =>
        obtain ⟨r1, hr1⟩ := insert_isSome (mk s1 d1 p1 a b) pfx (add8 level 1)
          (fun e => node.noConfusion e)
        exact ⟨mk s d p l r1, by cases l <;> simp only [insertHigh, hr1, Option.map_some']⟩

/-- On a tree that satisfies the invariant, `lpm` appends to `res` exactly the non-dummy
prefixes that contain the needle, in the order of the pre-order walk. -/
theorem lpm_eq (needle : Prefix) : ∀ (n : node), n.Inv → ∀ res : List Prefix,
    n.lpm needle res = res ++ n.leafPfxs.filter (fun q => q.Contains needle)
  | nil, _, res => by simp [lpm, leafPfxs_nil]
  | mk s d p l h, hn, res => by
    obtain ⟨hwp, hcon, hlen, hl, hh⟩ := Inv_mk_iff.1 hn
    unfold lpm
    by_cases h1 : p = needle ∧ d = false
    · rw [if_pos h1]
      obtain ⟨rfl, rfl⟩ := h1
      have hnil : (l.leafPfxs ++ h.leafPfxs).filter (fun q => q.Contains p) = [] := by
        rw [List.filter_eq_nil_iff]
        intro q hq hqp
        have := Prefix.pfxlen_le_of_Contains hqp
        have := hlen q (List.mem_append.1 hq)
        omega
      simp [leafPfxs, List.filter_cons, Prefix.Contains_refl, hnil]
    rw [if_neg h1]
    by_cases h2 : p.Contains needle = false
    · rw [if_pos h2]
      have hnil : (mk s d p l h).leafPfxs.filter (fun q => q.Contains needle) = [] := by
        rw [List.filter_eq_nil_iff]
        intro q hq hqn
        have hpq := Inv_Contains_allPfxs hn q (leafPfxs_subset_allPfxs _ q hq)
        rw [Prefix.Contains_trans hpq hqn] at h2
        exact Bool.noConfusion h2
      rw [hnil, List.append_nil]
    · rw [if_neg h2, lpm_eq needle h hh, lpm_eq needle l hl]
      have h2t : p.Contains needle = true := by simpa using h2
      cases d <;> simp [leafPfxs, List.filter_cons, h2t]

theorem Inv_ParentContainsChild : ∀ (n : node), n.Inv → n.ParentContainsChild
  | nil, _ => trivial
  | mk s d p l h, hn => by
    obtain ⟨_, hcon, _, hl, hh⟩ := Inv_mk_iff.1 hn
    refine ⟨?_, ?_, Inv_ParentContainsChild l hl, Inv_ParentContainsChild h hh⟩
    · intro q hq
      cases l with
      | nil => simp [rootPfx] at hq
      | mk s1 d1 p1 a b =>
        simp only [rootPfx, Option.mem_def, Option.some.injEq] at hq
        exact hcon q (Or.inl (hq ▸ mem_allPfxs_mk.2 (Or.inl rfl)))
    · intro q hq
      cases h with
      | nil => simp [rootPfx] at hq
      | mk s1 d1 p1 a b =>
        simp only [rootPfx, Option.mem_def, Option.some.injEq] at hq
        exact hcon q (Or.inr (hq ▸ mem_allPfxs_mk.2 (Or.inl rfl)))

end node

/-- The method `Insert` returns, and keeps the invariant of the tree. -/
theorem Insert_Inv (t : LPM) {pfx : Prefix} (ht : t.root.Inv) (hp : pfx.WellFormed) :
    ∃ t1, t.Insert pfx = some t1 ∧ t1.root.Inv := by
  obtain ⟨root, nodes⟩ := t
  cases root with
  | nil => exact ⟨_, rfl, node.Inv_newNode hp _⟩
  | mk s d p l h =>
    obtain ⟨r, hr⟩ := node.insert_isSome (node.mk s d p l h) pfx (add8 p.pfxlen 1)
      (fun e => node.noConfusion e)
    exact ⟨⟨r, nodes⟩, by simp only [LPM.Insert, hr, Option.map_some'],
      node.insert_Inv _ ht hp hr⟩

theorem insertAll_Inv : ∀ (ps : List Prefix) (t : LPM), t.root.Inv →
    (∀ p ∈ ps, p.WellFormed) → ∃ t1, insertAll t ps = some t1 ∧ t1.root.Inv
  | [], t, ht, _ => ⟨t, rfl, ht⟩
  | p :: ps, t, ht, hwf => by
    obtain ⟨t1, ht1, hInv⟩ := Insert_Inv t ht (hwf p (List.mem_cons_self p ps))
    obtain ⟨t2, ht2, hInv2⟩ := insertAll_Inv ps t1 hInv
      (fun q hq => hwf q (List.mem_cons_of_mem p hq))
    exact ⟨t2, by simp only [insertAll, ht1, Option.some_bind, ht2], hInv2⟩

/-- Every trie built from the empty trie with well-formed prefixes exists (no call of
`Insert` panics) and satisfies the invariant. -/
theorem build_Inv (ps : List Prefix) (hwf : ∀ p ∈ ps, p.WellFormed) :
    ∃ t, build ps = some t ∧ t.root.Inv :=
  insertAll_Inv ps New trivial hwf

theorem LPM_eq_lpm (t : LPM) (needle : Prefix) : t.LPM needle = t.root.lpm needle [] := by
  obtain ⟨root, nodes⟩ := t
  cases root <;> rfl

/-- Every non-dummy prefix after `Insert` is the inserted one or was there before. -/
theorem Insert_leafPfxs {t t1 : LPM} {pfx : Prefix} (h : t.Insert pfx = some t1) :
    ∀ q ∈ t1.root.leafPfxs, q = pfx ∨ q ∈ t.root.leafPfxs := by
  obtain ⟨root, nodes⟩ := t
  cases root with
  | nil =>
    simp only [LPM.Insert, Option.some.injEq] at h
    subst h
    intro q hq
    simp only [newNode, node.mem_leafPfxs_mk, node.leafPfxs_nil, List.not_mem_nil,
      or_false] at hq
    exact Or.inl hq.2
  | mk s d p l r =>
    simp only [LPM.Insert, Option.map_eq_some'] at h
    obtain ⟨r1, hr1, rfl⟩ := h
    exact node.insert_leafPfxs _ hr1

theorem insertAll_leafPfxs : ∀ (ps : List Prefix) {t t1 : LPM}, insertAll t ps = some t1 →
    ∀ q ∈ t1.root.leafPfxs, q ∈ ps ∨ q ∈ t.root.leafPfxs
  | [], t, t1, h, q, hq => by
    simp only [insertAll, Option.some.injEq] at h
    exact Or.inr (h ▸ hq)
  | p :: ps, t, t1, h, q, hq => by
    simp only [insertAll, Option.bind_eq_some] at h
    obtain ⟨t2, ht2, h2⟩ := h
    rcases insertAll_leafPfxs ps h2 q hq with hq1 | hq1
    · exact Or.inl (List.mem_cons_of_mem p hq1)
    · rcases Insert_leafPfxs ht2 q hq1 with rfl | hq2
      · exact Or.inl (List.mem_cons_self _ _)
      · exact Or.inr hq2

/-- Every prefix held by a non-dummy node of a built trie is one of the inserted ones. -/
theorem build_leafPfxs {ps : List Prefix} {t : LPM} (h : build ps = some t) :
    ∀ q ∈ t.root.leafPfxs, q ∈ ps := by
  intro q hq
  rcases insertAll_leafPfxs ps h q hq with hq1 | hq1
  · exact hq1
  · simp [New, node.leafPfxs_nil] at hq1

/-- With `moreSpecifics` set, `Get` never returns a prefix: it panics or returns the empty
list, because `dumpPfxs` works on its own copy of `res`. -/
theorem Get_moreSpecifics_none_or_nil (t : LPM) (pfx : Prefix) :
    t.Get pfx true = none ∨ t.Get pfx true = some [] := by
  obtain ⟨root, nodes⟩ := t
  cases root with
  | nil => exact Or.inr rfl
  | mk s d p l h =>
    simp only [LPM.Get]
    cases (node.mk s d p l h).get pfx with
    | none => exact Or.inl rfl
    | some n =>
      simp only [Option.some_bind, if_true]
      cases n.dumpPfxs [] with
      | none => exact Or.inl rfl
      | some u => exact Or.inr rfl

end lpm

/-! ## Bit selection -/

namespace lpm

open net

theorem land_two_pow_ne_zero_iff (x k : Nat) : x &&& 2 ^ k ≠ 0 ↔ x / 2 ^ k % 2 = 1 := by
  constructor
  · intro h
    by_contra hbit
    apply h
    apply Nat.eq_of_testBit_eq
    intro i
    rw [Nat.testBit_and, Nat.testBit_two_pow, Nat.zero_testBit]
    by_cases hki : k = i
    · subst hki
      rw [Nat.testBit_to_div_mod]
      simp [hbit]
    · simp [hki]
  · intro hbit h0
    have h1 : (x &&& 2 ^ k).testBit k = true := by
      rw [Nat.testBit_and, Nat.testBit_two_pow, Nat.testBit_to_div_mod]
      simp [hbit]
    rw [h0, Nat.zero_testBit] at h1
    exact Bool.noConfusion h1

/-- For a position in `1..32` the function `getBitUint32` tests the bit of weight
`2 ^ (32 - pos)`. -/
theorem getBitUint32_eq {x pos : Nat} (h1 : 1 ≤ pos) (h2 : pos ≤ 32) :
    getBitUint32 x pos = decide (x / 2 ^ (32 - pos) % 2 = 1) := by
  have hs : sub8 32 pos = 32 - pos := by
    unfold sub8
    omega
  have hlt : 2 ^ (32 - pos) < 2 ^ 32 := Nat.pow_lt_pow_right (by decide) (by omega)
  unfold getBitUint32
  rw [hs, Nat.one_shiftLeft, Nat.mod_eq_of_lt hlt]
  by_cases hb : x / 2 ^ (32 - pos) % 2 = 1
  · have := (land_two_pow_ne_zero_iff x (32 - pos)).2 hb
    simp [hb, this]
  · have : x &&& 2 ^ (32 - pos) = 0 := by
      by_contra hne
      exact hb ((land_two_pow_ne_zero_iff x (32 - pos)).1 hne)
    simp [hb, this]

/-- For the position 0 and for every `uint8` position above 32 the shifted one is zero as
a `uint32`, so `getBitUint32` is false. -/
theorem getBitUint32_eq_false {x pos : Nat} (h : pos = 0 ∨ 32 < pos) (h256 : pos < 256) :
    getBitUint32 x pos = false := by
  have hs : 32 ≤ sub8 32 pos := by
    unfold sub8
    omega
  have hz : 2 ^ sub8 32 pos % 2 ^ 32 = 0 :=
    Nat.mod_eq_zero_of_dvd (Nat.pow_dvd_pow 2 hs)
  unfold getBitUint32
  rw [Nat.one_shiftLeft, hz]
  simp

end lpm

/-! ## The supernode split places both children -/

namespace net.Prefix

/-- When neither of two prefixes with 32-bit addresses contains the other, the count of
matching leading bits is below both lengths. -/
theorem commonLen_lt_of_not_Contains {p x : Prefix} (hp : p.addr < 2 ^ 32)
    (hx : x.addr < 2 ^ 32) (hpx : p.Contains x = false) (hxp : x.Contains p = false) :
    commonLen p.addr x.addr 32 < p.pfxlen ∧ commonLen p.addr x.addr 32 < x.pfxlen := by
  have hag := commonLen_agree hp hx 32
  by_contra hcon
  rcases Nat.le_total p.pfxlen x.pfxlen with hle | hle
  · have hc : p.pfxlen ≤ commonLen p.addr x.addr 32 := by omega
    have : p.Contains x = true := by
      rw [Contains_iff]
      exact ⟨hle, shiftRight_congr (Nat.sub_le_sub_left hc 32) hag⟩
    rw [this] at hpx
    exact Bool.noConfusion hpx
  · have hc : x.pfxlen ≤ commonLen p.addr x.addr 32 := by omega
    have : x.Contains p = true := by
      rw [Contains_iff]
      exact ⟨hle, (shiftRight_congr (Nat.sub_le_sub_left hc 32) hag).symm⟩
    rw [this] at hxp
    exact Bool.noConfusion hxp

/-- The first bit after the common leading run differs. -/
theorem div_commonLen_mod_two_ne {a b : Nat} (ha : a < 2 ^ 32) (hb : b < 2 ^ 32)
    (hc : commonLen a b 32 < 32) :
    a / 2 ^ (32 - (commonLen a b 32 + 1)) % 2 ≠ b / 2 ^ (32 - (commonLen a b 32 + 1)) % 2 := by
  have hag := commonLen_agree ha hb 32
  have hne : a / 2 ^ (32 - (commonLen a b 32 + 1)) ≠ b / 2 ^ (32 - (commonLen a b 32 + 1)) := by
    intro h
    have := le_commonLen 32 (commonLen a b 32 + 1) (by omega)
      (by simpa only [Nat.shiftRight_eq_div_pow] using h)
    omega
  have hpow : 2 ^ (32 - commonLen a b 32) = 2 ^ (32 - (commonLen a b 32 + 1)) * 2 := by
    rw [← Nat.pow_succ]
    congr 1
    omega
  rw [Nat.shiftRight_eq_div_pow, Nat.shiftRight_eq_div_pow, hpow, ← Nat.div_div_eq_div_mul,
    ← Nat.div_div_eq_div_mul] at hag
  omega

end net.Prefix

namespace lpm

open net

/-- The bits that `insertChildren` tests for the old node and for the new prefix differ. -/
theorem getBitUint32_commonLen {a b : Nat} (ha : a < 2 ^ 32) (hb : b < 2 ^ 32)
    (hc : Prefix.commonLen a b 32 < 32) :
    getBitUint32 a (Prefix.commonLen a b 32 + 1) =
      !getBitUint32 b (Prefix.commonLen a b 32 + 1) := by
  have hne := Prefix.div_commonLen_mod_two_ne ha hb hc
  have hu2 : a / 2 ^ (32 - (Prefix.commonLen a b 32 + 1)) % 2 < 2 := Nat.mod_lt _ (by decide)
  have hv2 : b / 2 ^ (32 - (Prefix.commonLen a b 32 + 1)) % 2 < 2 := Nat.mod_lt _ (by decide)
  rw [getBitUint32_eq (by omega) (by omega), getBitUint32_eq (by omega) (by omega)]
  generalize a / 2 ^ (32 - (Prefix.commonLen a b 32 + 1)) % 2 = u at hne hu2 ⊢
  generalize b / 2 ^ (32 - (Prefix.commonLen a b 32 + 1)) % 2 = v at hne hv2 ⊢
  by_cases hu : u = 1 <;> by_cases hv : v = 1
  · exact absurd (hu.trans hv.symm) hne
  · simp [hu, hv]
  · simp [hu, hv]
  · exact absurd (show u = v by omega) hne

namespace node

/-- The exact outcome of `newSuperNode` when neither prefix contains the other: a dummy
node for the supernet with the old node on the side of its bit after the supernet and a
new leaf on the other side. -/
theorem newSuperNode_eq {s : Nat} {d : Bool} {np : Prefix} {l h : node} {p : Prefix}
    (hp : p.WellFormed) (hna : np.addr < 2 ^ 32) (hnl : np.pfxlen < 256)
    (hpn : p.Contains np = false) (hnp : np.Contains p = false) :
    (mk s d np l h).newSuperNode p =
      some (if getBitUint32 np.addr ((p.GetSupernet np).pfxlen + 1) = false then
        mk (p.GetSupernet np).pfxlen true (p.GetSupernet np)
          (mk (np.pfxlen - (p.GetSupernet np).pfxlen - 1) d np l h)
          (mk (p.pfxlen - (p.GetSupernet np).pfxlen - 1) false p nil nil)
      else
        mk (p.GetSupernet np).pfxlen true (p.GetSupernet np)
          (mk (p.pfxlen - (p.GetSupernet np).pfxlen - 1) false p nil nil)
          (mk (np.pfxlen - (p.GetSupernet np).pfxlen - 1) d np l h)) := by
  have hlt := Prefix.commonLen_lt_of_not_Contains hp.2.1 hna hpn hnp
  have hc32 : Prefix.commonLen p.addr np.addr 32 < 32 := lt_of_lt_of_le hlt.1 hp.1
  have hbit := getBitUint32_commonLen hp.2.1 hna hc32
  have hadd : add8 (Prefix.commonLen p.addr np.addr 32) 1 =
      Prefix.commonLen p.addr np.addr 32 + 1 := by
    unfold add8
    omega
  have hs1 : sub8 (sub8 np.pfxlen (Prefix.commonLen p.addr np.addr 32)) 1 =
      np.pfxlen - Prefix.commonLen p.addr np.addr 32 - 1 := by
    unfold sub8
    omega
  have hs2 : sub8 (sub8 p.pfxlen (Prefix.commonLen p.addr np.addr 32)) 1 =
      p.pfxlen - Prefix.commonLen p.addr np.addr 32 - 1 := by
    have := hp.1
    unfold sub8
    omega
  simp only [newSuperNode, insertChildren, newNode, Prefix.GetSupernet_pfxlen, hadd, hs1, hs2,
    hbit]
  cases getBitUint32 np.addr (Prefix.commonLen p.addr np.addr 32 + 1) <;> simp

end node

end lpm

/-! ## What `insert` keeps: branch arity and the stored prefixes -/

namespace lpm

open net

namespace node

theorem insert_ne_nil {n : node} {pfx : Prefix} {level : Nat} {r : node}
    (hr : n.insert pfx level = some r) : r ≠ nil := by
  cases n with
  | nil => simp [insert] at hr
  | mk s d p l h =>
    rcases insert_cases hr with ⟨_, rfl⟩ | ⟨_, _, hb⟩ | ⟨_, _, hs⟩ | ⟨_, _, _, _, rfl⟩ |
      ⟨_, _, _, _, l1, _, rfl⟩ | ⟨_, _, _, _, rfl⟩ | ⟨_, _, _, _, h1, _, rfl⟩
    · exact fun e => node.noConfusion e
    · obtain ⟨s1, s2, rfl | rfl⟩ := insertBefore_cases hb <;> exact fun e => node.noConfusion e
    · obtain ⟨s1, s2, s3, c1, c2, rfl, _, _⟩ := newSuperNode_cases hs
      exact fun e => node.noConfusion e
    all_goals exact fun e => node.noConfusion e

theorem BothChildren_leaf (s : Nat) (p : Prefix) : (mk s false p nil nil).BothChildren :=
  ⟨fun e => Bool.noConfusion e, trivial, trivial⟩

/-- The function `insert` keeps the branch arity: after it every dummy node still has two
children. -/
theorem insert_BothChildren : ∀ (n : node) {pfx : Prefix} {level : Nat} {r : node},
    n.Inv → n.BothChildren → pfx.WellFormed → n.insert pfx level = some r → r.BothChildren
  | nil, _, _, _, _, _, _, hr => by simp [insert] at hr
  | mk s d p l h, pfx, level, r, hn, hb, hp, hr => by
    obtain ⟨hwp, _, _, hl, hh⟩ := Inv_mk_iff.1 hn
    obtain ⟨hd, hbl, hbh⟩ := hb
    rcases insert_cases hr with ⟨_, rfl⟩ | ⟨_, _, hbf⟩ | ⟨hnp, hpn, hs⟩ | ⟨_, _, _, rfl, rfl⟩ |
      ⟨_, _, _, _, l1, hl1, rfl⟩ | ⟨_, _, _, rfl, rfl⟩ | ⟨_, _, _, _, h1, hh1, rfl⟩
    · exact ⟨hd, hbl, hbh⟩
    · obtain ⟨s1, s2, rfl | rfl⟩ := insertBefore_cases hbf
      · exact ⟨fun e => Bool.noConfusion e, ⟨hd, hbl, hbh⟩, trivial⟩
      · exact ⟨fun e => Bool.noConfusion e, trivial, ⟨hd, hbl, hbh⟩⟩
    · rw [newSuperNode_eq hp hwp.2.1 (lt_of_le_of_lt hwp.1 (by decide)) hpn hnp] at hs
      have hs := (Option.some.inj hs).symm
      split at hs <;> subst hs
      · exact ⟨fun _ => ⟨fun e => node.noConfusion e, fun e => node.noConfusion e⟩,
          ⟨hd, hbl, hbh⟩, BothChildren_leaf _ _⟩
      · exact ⟨fun _ => ⟨fun e => node.noConfusion e, fun e => node.noConfusion e⟩,
          BothChildren_leaf _ _, ⟨hd, hbl, hbh⟩⟩
    · exact ⟨fun e => absurd rfl (hd e).1, BothChildren_leaf _ _, hbh⟩
    · exact ⟨fun e => ⟨insert_ne_nil hl1, (hd e).2⟩,
        insert_BothChildren l hl hbl hp hl1, hbh⟩
    · exact ⟨fun e => absurd rfl (hd e).2, hbl, BothChildren_leaf _ _⟩
    · exact ⟨fun e => ⟨(hd e).1, insert_ne_nil hh1⟩, hbl,
        insert_BothChildren h hh hbh hp hh1⟩

/-- The function `insert` keeps every stored prefix and adds at most the inserted one: the
non-dummy prefixes afterwards are a rearrangement of those before, with or without one
more occurrence of the inserted prefix. -/
theorem insert_leafPfxs_perm : ∀ (n : node) {pfx : Prefix} {level : Nat} {r : node},
    n.Inv → pfx.WellFormed → n.insert pfx level = some r →
    r.leafPfxs.Perm n.leafPfxs ∨ r.leafPfxs.Perm (pfx :: n.leafPfxs)
  | nil, _, _, _, _, _, hr => by simp [insert] at hr
  | mk s d p l h, pfx, level, r, hn, hp, hr => by
    obtain ⟨hwp, _, _, hl, hh⟩ := Inv_mk_iff.1 hn
    rcases insert_cases hr with ⟨_, rfl⟩ | ⟨_, _, hbf⟩ | ⟨hnp, hpn, hs⟩ | ⟨_, _, _, rfl, rfl⟩ |
      ⟨_, _, _, _, l1, hl1, rfl⟩ | ⟨_, _, _, rfl, rfl⟩ | ⟨_, _, _, _, h1, hh1, rfl⟩
    · exact Or.inl (List.Perm.refl _)
    · obtain ⟨s1, s2, rfl | rfl⟩ := insertBefore_cases hbf <;>
        exact Or.inr (by simp [leafPfxs])
    · rw [newSuperNode_eq hp hwp.2.1 (lt_of_le_of_lt hwp.1 (by decide)) hpn hnp] at hs
      have hs := (Option.some.inj hs).symm
      split at hs <;> subst hs
      · refine Or.inr ?_
        simp only [leafPfxs, List.append_nil, List.nil_append, if_true, Bool.true_eq_false,
          if_false]
        exact List.perm_append_singleton _ _
      · exact Or.inr (by simp [leafPfxs])
    · refine Or.inr ?_
      simp only [leafPfxs, newNode, List.append_nil, List.nil_append, if_true]
      exact List.perm_middle
    · simp only [leafPfxs]
      rcases insert_leafPfxs_perm l hl hp hl1 with ih | ih
      · exact Or.inl (List.Perm.append_left _ (List.Perm.append_right _ ih))
      · refine Or.inr ((List.Perm.append_left _ (List.Perm.append_right _ ih)).trans ?_)
        exact List.perm_middle
    · refine Or.inr ?_
      simp only [leafPfxs, newNode, List.append_nil, List.nil_append, if_true]
      rw [← List.append_assoc]
      exact List.perm_append_singleton _ _
    · simp only [leafPfxs]
      rcases insert_leafPfxs_perm h hh hp hh1 with ih | ih
      · exact Or.inl (List.Perm.append_left _ (List.Perm.append_left _ ih))
      · refine Or.inr ((List.Perm.append_left _ (List.Perm.append_left _ ih)).trans ?_)
        rw [← List.append_assoc]
        exact List.perm_middle.trans (List.Perm.cons _ (by rw [List.append_assoc]))

end node

end lpm

/-! ## Branch arity and stored prefixes on reachable tries -/

namespace lpm

open net

theorem Insert_BothChildren {t t1 : LPM} {pfx : Prefix} (ht : t.root.Inv)
    (hb : t.root.BothChildren) (hp : pfx.WellFormed) (h : t.Insert pfx = some t1) :
    t1.root.BothChildren := by
  obtain ⟨root, nodes⟩ := t
  cases root with
  | nil =>
    simp only [LPM.Insert, Option.some.injEq] at h
    subst h
    exact node.BothChildren_leaf _ _
  | mk s d p l r =>
    simp only [LPM.Insert, Option.map_eq_some'] at h
    obtain ⟨r1, hr1, rfl⟩ := h
    exact node.insert_BothChildren _ ht hb hp hr1

theorem insertAll_BothChildren : ∀ (ps : List Prefix) {t t1 : LPM}, t.root.Inv →
    t.root.BothChildren → (∀ p ∈ ps, p.WellFormed) → insertAll t ps = some t1 →
    t1.root.BothChildren
  | [], t, t1, _, hb, _, h => by
    simp only [insertAll, Option.some.injEq] at h
    exact h ▸ hb
  | p :: ps, t, t1, ht, hb, hwf, h => by
    simp only [insertAll, Option.bind_eq_some] at h
    obtain ⟨t2, ht2, h2⟩ := h
    have hp := hwf p (List.mem_cons_self p ps)
    obtain ⟨t3, ht3, hInv3⟩ := Insert_Inv t ht hp
    have e : t3 = t2 := Option.some.inj (ht3.symm.trans ht2)
    subst e
    exact insertAll_BothChildren ps hInv3 (Insert_BothChildren ht hb hp ht2)
      (fun q hq => hwf q (List.mem_cons_of_mem p hq)) h2

/-- The method `Insert` keeps every stored prefix and adds at most the inserted one. -/
theorem Insert_leafPfxs_perm {t t1 : LPM} {pfx : Prefix} (ht : t.root.Inv)
    (hp : pfx.WellFormed) (h : t.Insert pfx = some t1) :
    t1.root.leafPfxs.Perm t.root.leafPfxs ∨ t1.root.leafPfxs.Perm (pfx :: t.root.leafPfxs) := by
  obtain ⟨root, nodes⟩ := t
  cases root with
  | nil =>
    simp only [LPM.Insert, Option.some.injEq] at h
    subst h
    exact Or.inr (by simp [newNode, node.leafPfxs])
  | mk s d p l r =>
    simp only [LPM.Insert, Option.map_eq_some'] at h
    obtain ⟨r1, hr1, rfl⟩ := h
    exact node.insert_leafPfxs_perm _ ht hp hr1

end lpm

/-! ## The claims -/

namespace lpm

open net

/-- C1: in every trie built from the empty trie by `Insert` calls with well-formed
prefixes, and for every needle, a prefix occurs in `LPM(needle)` if and only if it is held
by a non-dummy node and contains the needle; moreover the result is exactly the list of
non-dummy prefixes (in walk order) filtered by containment of the needle, so a dummy node
never contributes an element. -/
theorem LPM_mem_iff_leaf_and_Contains (ps : List Prefix) (hwf : ∀ p ∈ ps, p.WellFormed)
    (needle : Prefix) :
    ∃ t, build ps = some t ∧
      (∀ q, q ∈ t.LPM needle ↔ q ∈ t.root.leafPfxs ∧ q.Contains needle = true) ∧
      t.LPM needle = t.root.leafPfxs.filter (fun q => q.Contains needle) := by
  obtain ⟨t, ht, hInv⟩ := build_Inv ps hwf
  have heq : t.LPM needle = t.root.leafPfxs.filter (fun q => q.Contains needle) := by
    rw [LPM_eq_lpm, node.lpm_eq needle t.root hInv, List.nil_append]
  refine ⟨t, ht, fun q => ?_, heq⟩
  rw [heq, List.mem_filter]

/-- Witness for C1: the prefixes of `TestLPM` (10.0.0.0/8, 11.100.123.0/24, 10.0.0.0/12,
10.0.0.0/10) and the needle 10.0.0.0/32. -/
theorem LPM_mem_iff_leaf_and_Contains_witness :
    (∀ p ∈ [NewPfx 167772160 8, NewPfx 191134464 24, NewPfx 167772160 12,
        NewPfx 167772160 10], p.WellFormed) ∧
    ∃ t, build [NewPfx 167772160 8, NewPfx 191134464 24, NewPfx 167772160 12,
        NewPfx 167772160 10] = some t ∧
      (∀ q, q ∈ t.LPM (NewPfx 167772160 32) ↔
        q ∈ t.root.leafPfxs ∧ q.Contains (NewPfx 167772160 32) = true) ∧
      t.LPM (NewPfx 167772160 32) =
        t.root.leafPfxs.filter (fun q => q.Contains (NewPfx 167772160 32)) :=
  ⟨by decide, LPM_mem_iff_leaf_and_Contains _ (by decide) _⟩

/-- C2 (evaluation at the failing input): after inserting 10.0.0.0/8, 11.0.0.0/8 and
10.0.0.0/7, the inserted prefix 10.0.0.0/7 contains the inserted prefix 10.0.0.0/8 and
differs from it, yet `LPM(10.0.0.0/8)` is `[10.0.0.0/8]`: the third `Insert` found the
dummy node of the supernet 10.0.0.0/7 and returned without storing anything. -/
theorem LPM_misses_prefix_equal_to_dummy :
    (build [NewPfx 167772160 8, NewPfx 184549376 8, NewPfx 167772160 7]).map
        (fun t => t.LPM (NewPfx 167772160 8)) = some [NewPfx 167772160 8] ∧
      (NewPfx 167772160 7).Contains (NewPfx 167772160 8) = true ∧
      NewPfx 167772160 7 ≠ NewPfx 167772160 8 :=
  ⟨by decide, by decide, by decide⟩

/-- C3 (evaluation at the failing input): after inserting 10.0.0.0/8, 10.128.0.0/12,
0.0.0.0/0, 10.192.0.0/16 and 10.128.0.0/16, `LPM(10.128.0.0/16)` lists 10.128.0.0/16
before 10.128.0.0/12, so the prefix lengths are not increasing along the result. -/
theorem LPM_result_not_ordered :
    (build [NewPfx 167772160 8, NewPfx 176160768 12, NewPfx 0 0, NewPfx 180355072 16,
        NewPfx 176160768 16]).map (fun t => t.LPM (NewPfx 176160768 16)) =
      some [NewPfx 0 0, NewPfx 167772160 8, NewPfx 176160768 16, NewPfx 176160768 12] ∧
    ¬ List.Pairwise (fun a b : Prefix => a.pfxlen < b.pfxlen)
      [NewPfx 0 0, NewPfx 167772160 8, NewPfx 176160768 16, NewPfx 176160768 12] :=
  ⟨by decide, by decide⟩

/-- C4 (evaluation at the failing input): on the trie built from 10.0.0.0/8 and
10.0.0.0/16, a second `Insert(10.1.0.0/16)` changes the trie left by the first one: it
adds a second dummy node for 10.0.0.0/15 and a second leaf for 10.1.0.0/16. -/
theorem Insert_twice_differs :
    ∃ t t1 t2, build [NewPfx 167772160 8, NewPfx 167772160 16] = some t ∧
      t.Insert (NewPfx 167837696 16) = some t1 ∧ t1.Insert (NewPfx 167837696 16) = some t2 ∧
      t2 ≠ t1 ∧
      t1.root.leafPfxs = [NewPfx 167772160 8, NewPfx 167772160 16, NewPfx 167837696 16] ∧
      t2.root.leafPfxs = [NewPfx 167772160 8, NewPfx 167772160 16, NewPfx 167837696 16,
        NewPfx 167837696 16] :=
  ⟨_, _, _, rfl, rfl, rfl, by decide, by decide, by decide⟩

/-- C5 (evaluation at the failing input): after inserting 10.0.0.0/8 and 10.0.0.0/9,
`Get(10.0.0.0/9, false)` does not return `[10.0.0.0/9]`: `get` follows the nil high
pointer of the root and the call panics. -/
theorem Get_inserted_prefix_panics :
    (build [NewPfx 167772160 8, NewPfx 167772160 9]).map
      (fun t => t.Get (NewPfx 167772160 9) false) = some none := by
  decide

/-- C6 (evaluation at the failing input): after inserting 10.0.0.0/8 and 11.100.123.0/24
the root is the dummy node of 10.0.0.0/7; `get` returns nil for 10.0.0.0/7 and `Get`
dereferences it, so `Get(10.0.0.0/7, false)` and `Get(10.0.0.0/7, true)` both panic
instead of returning the not-found result. -/
theorem Get_absent_prefix_panics :
    (build [NewPfx 167772160 8, NewPfx 191134464 24]).map
      (fun t => (t.Get (NewPfx 167772160 7) false, t.Get (NewPfx 167772160 7) true)) =
      some (none, none) := by
  decide

/-- C7 (evaluation at the failing input): after inserting 10.0.0.0/8, 11.100.123.0/24,
10.0.0.0/12 and 10.0.0.0/10, `Get(10.0.0.0/8, true)` returns the empty list, not
`[10.0.0.0/8, 10.0.0.0/10, 10.0.0.0/12]`: `dumpPfxs` appends to its own copy of `res`. -/
theorem Get_moreSpecifics_returns_nothing :
    (build [NewPfx 167772160 8, NewPfx 191134464 24, NewPfx 167772160 12,
        NewPfx 167772160 10]).map (fun t => t.Get (NewPfx 167772160 8) true) =
      some (some []) := by
  decide

/-- C8 (evaluation at the failing input): after inserting 10.0.0.0/8, 11.0.0.0/8 and
10.0.0.0/7 the non-dummy nodes hold 10.0.0.0/8 and 11.0.0.0/8 only; the inserted prefix
10.0.0.0/7 is held by no non-dummy node. -/
theorem leafPfxs_misses_prefix_equal_to_dummy :
    (build [NewPfx 167772160 8, NewPfx 184549376 8, NewPfx 167772160 7]).map
        (fun t => t.root.leafPfxs) = some [NewPfx 167772160 8, NewPfx 184549376 8] := by
  decide

/-- C9: on the empty trie returned by `New`, `LPM(needle)` is the empty list for every
needle, and `Get(pfx, moreSpecifics)` returns the empty list (without panicking) for every
prefix and either flag value. -/
theorem New_LPM_and_Get_empty (needle pfx : Prefix) (moreSpecifics : Bool) :
    New.LPM needle = [] ∧ New.Get pfx moreSpecifics = some [] :=
  ⟨rfl, rfl⟩

/-- C10: in every trie built from the empty trie by `Insert` calls with well-formed
prefixes, the prefix of every node contains the prefix of each of its children, and a
further `Insert` of a well-formed prefix returns a trie in which this still holds. -/
theorem ParentContainsChild_of_build (ps : List Prefix) (hwf : ∀ p ∈ ps, p.WellFormed) :
    ∃ t, build ps = some t ∧ t.root.ParentContainsChild ∧
      ∀ p : Prefix, p.WellFormed →
        ∃ t1, t.Insert p = some t1 ∧ t1.root.ParentContainsChild := by
  obtain ⟨t, ht, hInv⟩ := build_Inv ps hwf
  refine ⟨t, ht, node.Inv_ParentContainsChild _ hInv, fun p hp => ?_⟩
  obtain ⟨t1, ht1, hInv1⟩ := Insert_Inv t hInv hp
  exact ⟨t1, ht1, node.Inv_ParentContainsChild _ hInv1⟩

/-- Witness for C10: the prefixes 10.0.0.0/8, 11.100.123.0/24, 10.0.0.0/12 and
10.0.0.0/10 of `TestInsert`. -/
theorem ParentContainsChild_of_build_witness :
    (∀ p ∈ [NewPfx 167772160 8, NewPfx 191134464 24, NewPfx 167772160 12,
        NewPfx 167772160 10], p.WellFormed) ∧
    ∃ t, build [NewPfx 167772160 8, NewPfx 191134464 24, NewPfx 167772160 12,
        NewPfx 167772160 10] = some t ∧ t.root.ParentContainsChild ∧
      ∀ p : Prefix, p.WellFormed →
        ∃ t1, t.Insert p = some t1 ∧ t1.root.ParentContainsChild :=
  ⟨by decide, ParentContainsChild_of_build _ (by decide)⟩

end lpm

namespace lpm

open net

/-- C11 (evaluation at the failing input): after inserting 10.128.0.0/9 and then
10.0.0.0/8, the root holds 10.0.0.0/8 (length 8) and its low child holds 10.128.0.0/9,
a prefix whose address bit at position 9 is 1. -/
theorem low_child_with_next_bit_set :
    (build [NewPfx 176160768 9, NewPfx 167772160 8]).map (fun t => t.root) =
      some (node.mk 255 false (NewPfx 167772160 8)
        (node.mk 254 false (NewPfx 176160768 9) node.nil node.nil) node.nil) ∧
    176160768 / 2 ^ (32 - (8 + 1)) % 2 = 1 :=
  ⟨by decide, by decide⟩

/-- C12 (evaluation at the failing input): after inserting 10.0.0.0/8, 10.0.0.0/16 and
twice 10.1.0.0/16, two distinct non-dummy nodes hold 10.1.0.0/16. -/
theorem leafPfxs_with_duplicate :
    (build [NewPfx 167772160 8, NewPfx 167772160 16, NewPfx 167837696 16,
        NewPfx 167837696 16]).map (fun t => t.root.leafPfxs) =
      some [NewPfx 167772160 8, NewPfx 167772160 16, NewPfx 167837696 16,
        NewPfx 167837696 16] ∧
    ¬ List.Nodup [NewPfx 167772160 8, NewPfx 167772160 16, NewPfx 167837696 16,
        NewPfx 167837696 16] :=
  ⟨by decide, by decide⟩

/-- C13: in every trie built from the empty trie by `Insert` calls with well-formed
prefixes, every dummy node has both its low and its high child. -/
theorem BothChildren_of_build (ps : List Prefix) (hwf : ∀ p ∈ ps, p.WellFormed) :
    ∃ t, build ps = some t ∧ t.root.BothChildren := by
  obtain ⟨t, ht, _⟩ := build_Inv ps hwf
  exact ⟨t, ht, insertAll_BothChildren ps (t := New) trivial trivial hwf ht⟩

/-- Witness for C13: the prefixes 10.0.0.0/8, 11.100.123.0/24, 10.0.0.0/12 and
10.0.0.0/10 of `TestInsert`, whose root is a dummy node. -/
theorem BothChildren_of_build_witness :
    (∀ p ∈ [NewPfx 167772160 8, NewPfx 191134464 24, NewPfx 167772160 12,
        NewPfx 167772160 10], p.WellFormed) ∧
    ∃ t, build [NewPfx 167772160 8, NewPfx 191134464 24, NewPfx 167772160 12,
        NewPfx 167772160 10] = some t ∧ t.root.BothChildren :=
  ⟨by decide, BothChildren_of_build _ (by decide)⟩

/-- C14: on every trie built from the empty trie by `Insert` calls with well-formed
prefixes, `Insert(p)` with a well-formed `p` returns a trie in which every prefix held by
a non-dummy node before is still held by a non-dummy node, and every prefix held by a
non-dummy node afterwards is `p` or was held before; counted with multiplicity, the
non-dummy prefixes afterwards are those before, with or without one more `p`. -/
theorem Insert_keeps_stored (ps : List Prefix) (hwf : ∀ q ∈ ps, q.WellFormed) (p : Prefix)
    (hp : p.WellFormed) :
    ∃ t t1, build ps = some t ∧ t.Insert p = some t1 ∧
      (∀ q ∈ t.root.leafPfxs, q ∈ t1.root.leafPfxs) ∧
      (∀ q ∈ t1.root.leafPfxs, q = p ∨ q ∈ t.root.leafPfxs) ∧
      (t1.root.leafPfxs.Perm t.root.leafPfxs ∨
        t1.root.leafPfxs.Perm (p :: t.root.leafPfxs)) := by
  obtain ⟨t, ht, hInv⟩ := build_Inv ps hwf
  obtain ⟨t1, ht1, _⟩ := Insert_Inv t hInv hp
  have hperm := Insert_leafPfxs_perm hInv hp ht1
  refine ⟨t, t1, ht, ht1, fun q hq => ?_, Insert_leafPfxs ht1, hperm⟩
  rcases hperm with h | h
  · exact h.mem_iff.2 hq
  · exact h.mem_iff.2 (List.mem_cons_of_mem p hq)

/-- Witness for C14: the trie of 10.0.0.0/8, 11.100.123.0/24 and 10.0.0.0/12, and the
insertion of 10.0.0.0/10. -/
theorem Insert_keeps_stored_witness :
    ∃ t t1, build [NewPfx 167772160 8, NewPfx 191134464 24, NewPfx 167772160 12] = some t ∧
      t.Insert (NewPfx 167772160 10) = some t1 ∧
      (∀ q ∈ t.root.leafPfxs, q ∈ t1.root.leafPfxs) ∧
      (∀ q ∈ t1.root.leafPfxs, q = NewPfx 167772160 10 ∨ q ∈ t.root.leafPfxs) ∧
      (t1.root.leafPfxs.Perm t.root.leafPfxs ∨
        t1.root.leafPfxs.Perm (NewPfx 167772160 10 :: t.root.leafPfxs)) :=
  Insert_keeps_stored _ (by decide) _ (by decide)

/-- C15: for a node `n` (32-bit address, 8-bit length) and a well-formed prefix `p` such
that neither prefix contains the other, `n.newSuperNode(p)` returns a dummy node whose
prefix is the supernet `s` of `p` and `n`'s prefix and whose skip is the length of `s`; `s`
is strictly shorter than both prefixes; the bits of the two addresses at position
`s.length + 1` differ; the old node, with its children unchanged and its skip set to its
length minus `s.length` minus 1, is the low child when its bit is 0 and the high child when
it is 1, and a new childless non-dummy node holding `p`, with skip `p.length` minus
`s.length` minus 1, is the other child. -/
theorem newSuperNode_split (s : Nat) (d : Bool) (np : Prefix) (l h : node) (p : Prefix)
    (hp : p.WellFormed) (hna : np.addr < 2 ^ 32) (hnl : np.pfxlen < 256)
    (hnp : np.Contains p = false) (hpn : p.Contains np = false) :
    (p.GetSupernet np).pfxlen < np.pfxlen ∧ (p.GetSupernet np).pfxlen < p.pfxlen ∧
    getBitUint32 p.addr ((p.GetSupernet np).pfxlen + 1) =
      (!getBitUint32 np.addr ((p.GetSupernet np).pfxlen + 1)) ∧
    (node.mk s d np l h).newSuperNode p =
      some (if getBitUint32 np.addr ((p.GetSupernet np).pfxlen + 1) = false then
        node.mk (p.GetSupernet np).pfxlen true (p.GetSupernet np)
          (node.mk (np.pfxlen - (p.GetSupernet np).pfxlen - 1) d np l h)
          (node.mk (p.pfxlen - (p.GetSupernet np).pfxlen - 1) false p node.nil node.nil)
      else
        node.mk (p.GetSupernet np).pfxlen true (p.GetSupernet np)
          (node.mk (p.pfxlen - (p.GetSupernet np).pfxlen - 1) false p node.nil node.nil)
          (node.mk (np.pfxlen - (p.GetSupernet np).pfxlen - 1) d np l h)) := by
  have hlt := Prefix.commonLen_lt_of_not_Contains hp.2.1 hna hpn hnp
  refine ⟨hlt.2, hlt.1, ?_, node.newSuperNode_eq hp hna hnl hpn hnp⟩
  exact getBitUint32_commonLen hp.2.1 hna (lt_of_lt_of_le hlt.1 hp.1)

/-- Witness for C15: the node of 10.0.0.0/8 and the prefix 11.100.123.0/24 of
`TestNewSuperNode`. -/
theorem newSuperNode_split_witness :
    ((NewPfx 191134464 24).GetSupernet (NewPfx 167772160 8)).pfxlen < 8 ∧
    (node.mk 8 false (NewPfx 167772160 8) node.nil node.nil).newSuperNode
        (NewPfx 191134464 24) =
      some (node.mk 7 true (NewPfx 167772160 7)
        (node.mk 0 false (NewPfx 167772160 8) node.nil node.nil)
        (node.mk 16 false (NewPfx 191134464 24) node.nil node.nil)) := by
  have h := newSuperNode_split 8 false (NewPfx 167772160 8) node.nil node.nil
    (NewPfx 191134464 24) (by decide) (by decide) (by decide) (by decide) (by decide)
  refine ⟨h.1, h.2.2.2.trans ?_⟩
  decide

/-- C16 (evaluation at the failing input): on the trie holding only 10.128.0.0/9,
`Insert(10.0.0.0/8)` reaches the root with level 10 and `insertBefore` makes it the low
child of the new node for 10.0.0.0/8, although the bit of 10.128.0.0 at position 9 (the
position after the new prefix) is 1. -/
theorem insertBefore_places_by_wrong_bit :
    (newNode (NewPfx 176160768 9) 9 false).insertBefore (NewPfx 167772160 8) 10 =
      some (node.mk 255 false (NewPfx 167772160 8)
        (node.mk 254 false (NewPfx 176160768 9) node.nil node.nil) node.nil) ∧
    (LPM.mk (newNode (NewPfx 176160768 9) 9 false) 0).Insert (NewPfx 167772160 8) =
      some (LPM.mk (node.mk 255 false (NewPfx 167772160 8)
        (node.mk 254 false (NewPfx 176160768 9) node.nil node.nil) node.nil) 0) ∧
    getBitUint32 176160768 (8 + 1) = true ∧ getBitUint32 167772160 10 = false :=
  ⟨by decide, by decide, by decide, by decide⟩

/-- C17 (evaluation at the failing input): after inserting 10.0.0.0/10 and then
10.0.0.0/8, the root holds 10.0.0.0/8 with skip 254 (not 8) and its child 10.0.0.0/10 has
skip 254 (not 10 - 8 - 1 = 1): both subtractions wrapped around.  The direct call of
`TestInsertBefore`, `insertBefore(10.0.0.0/8, 8)` on the node of 10.0.0.0/10, gives the
new node skip 1 where the test expects 8. -/
theorem skip_wraps_after_insertBefore_at_root :
    (build [NewPfx 167772160 10, NewPfx 167772160 8]).map (fun t => t.root) =
      some (node.mk 254 false (NewPfx 167772160 8)
        (node.mk 254 false (NewPfx 167772160 10) node.nil node.nil) node.nil) ∧
    (newNode (NewPfx 167772160 10) 10 false).insertBefore (NewPfx 167772160 8) 8 =
      some (node.mk 1 false (NewPfx 167772160 8)
        (node.mk 1 false (NewPfx 167772160 10) node.nil node.nil) node.nil) :=
  ⟨by decide, by decide⟩

set_option maxRecDepth 100000 in
/-- C18 (evaluation at the failing input): after inserting 0.0.0.0/0, 0.0.0.0/32, 31 times
0.0.0.1/32 and then 0.0.0.0/1, the longest root-to-node path has 34 nodes. -/
theorem depth_exceeds_33 :
    (build ([NewPfx 0 0, NewPfx 0 32] ++ List.replicate 31 (NewPfx 1 32) ++
        [NewPfx 0 1])).map (fun t => t.root.depth) = some 34 := by
  decide

/-- C19: for every `x` and every `uint8` position `pos`, `getBitUint32(x, pos)` is true if
and only if `1 <= pos <= 32` and the bit of `x` of weight `2 ^ (32 - pos)` is set; it is
false for `pos = 0` and for every `pos > 32`. -/
theorem getBitUint32_iff (x pos : Nat) (hpos : pos < 256) :
    (getBitUint32 x pos = true ↔ 1 ≤ pos ∧ pos ≤ 32 ∧ x / 2 ^ (32 - pos) % 2 = 1) ∧
    (pos = 0 ∨ 32 < pos → getBitUint32 x pos = false) := by
  refine ⟨?_, fun h => getBitUint32_eq_false h hpos⟩
  by_cases h : 1 ≤ pos ∧ pos ≤ 32
  · rw [getBitUint32_eq h.1 h.2]
    simp [h.1, h.2]
  · have hf : getBitUint32 x pos = false := getBitUint32_eq_false (by omega) hpos
    rw [hf]
    constructor
    · intro e
      exact Bool.noConfusion e
    · intro e
      exact absurd ⟨e.1, e.2.1⟩ h

/-- Witness for C19: bit 8 of 11.0.0.0 (`TestGetBitUint32`, test 2). -/
theorem getBitUint32_iff_witness :
    (getBitUint32 184549376 8 = true ↔ 1 ≤ 8 ∧ 8 ≤ 32 ∧ 184549376 / 2 ^ (32 - 8) % 2 = 1) ∧
    ((8 : Nat) = 0 ∨ 32 < 8 → getBitUint32 184549376 8 = false) :=
  getBitUint32_iff 184549376 8 (by decide)

end lpm
